import Mathlib

/-!
Verification of the `deckstrings` Hearthstone deckstring codec.

This file gives a shallow embedding of the Go package `deckstrings`
(files `deckstrings.go` and `varint.go`) and proves properties of the
embedded definitions.

Modelling conventions:
* Go `uint64` values become `Nat` together with explicit `< 2 ^ 64`
  side conditions where the width matters (varint reading caps at ten
  bytes, exactly as `binary.ReadUvarint` does).
* Bytes are `Nat` values below 256; byte streams are `List Nat`.
* Fallible Go functions returning `(T, error)` become `Except` values.
* Go's `sort.Slice` is modelled with `List.insertionSort`.
  `sort.Slice` does not document stability, but on slices shorter than
  twelve elements it runs exactly an insertion sort, which is stable, so
  the model agrees with the implementation on every concrete input
  considered here and on all realistic deck sizes per count group.
* `base64.StdEncoding` (RFC 4648 standard alphabet with padding) is
  embedded directly on `List Char`; the streaming adapters
  (`base64.NewDecoder`, `bufio.Reader`) are modelled as whole-input
  transforms.
-/

namespace Deckstrings

open List (Perm)

/-- Embeds the Go struct `Deck`: a format tag, hero DBF IDs, and
(card DBF ID, count) pairs. -/
structure Deck where
  format : Nat
  heroes : List Nat
  cards : List (Nat × Nat)
deriving DecidableEq, Repr

/-- Errors produced while decoding a deckstring. -/
inductive DecodeError where
  | truncated
  | overflow
  | invalidReserved (value : Nat)
  | unsupportedVersion (value : Nat)
  | invalidBase64
deriving DecidableEq, Repr

/-- Errors produced while encoding a deck. -/
inductive EncodeError where
  | invalidCardCount (dbfID : Nat)
deriving DecidableEq, Repr

/-- Embeds `binary.PutUvarint` (used by `varintWriter.Write`): emit the
low seven bits with the continuation bit set while the value is at least
`0x80`, then the final byte. -/
def putUvarint (x : Nat) : List Nat :=
  if h : x < 128 then [x]
  else (x % 128 + 128) :: putUvarint (x / 128)
termination_by x
decreasing_by exact Nat.div_lt_self (by omega) (by omega)

/-- Embeds the loop of `binary.ReadUvarint` (used by `varintReader.Read`):
`i` counts consumed bytes (at most ten for a 64-bit value), `x` is the
accumulator and `s` the current shift. -/
def readUvarintAux : List Nat → Nat → Nat → Nat → Except DecodeError (Nat × List Nat)
  | [], i, _, _ => if 10 ≤ i then .error .overflow else .error .truncated
  | b :: rest, i, x, s =>
    if 10 ≤ i then .error .overflow
    else if b < 128 then
      if i = 9 ∧ 1 < b then .error .overflow
      else .ok (x + b * 2 ^ s, rest)
    else readUvarintAux rest (i + 1) (x + b % 128 * 2 ^ s) (s + 7)

/-- Embeds `varintReader.Read`: decode one unsigned varint from the front
of the stream, returning the value and the remaining bytes. -/
def readUvarint (bs : List Nat) : Except DecodeError (Nat × List Nat) :=
  readUvarintAux bs 0 0 0

/-- Embeds `varintReader.ReadMany` (and the hero-reading loop of
`Decode`): read `n` varints in sequence. -/
def readUvarints : Nat → List Nat → Except DecodeError (List Nat × List Nat)
  | 0, bs => .ok ([], bs)
  | n + 1, bs => do
    let (v, bs1) ← readUvarint bs
    let (vs, bs2) ← readUvarints n bs1
    .ok (v :: vs, bs2)

/-- Embeds the group-1/group-2 iterations of `Decode`'s card loop: read
`n` DBF IDs, each paired with the implicit count `k` of the group. -/
def parseSingles (k : Nat) : Nat → List Nat → Except DecodeError (List (Nat × Nat) × List Nat)
  | 0, bs => .ok ([], bs)
  | n + 1, bs => do
    let (dbfID, bs1) ← readUvarint bs
    let (cs, bs2) ← parseSingles k n bs1
    .ok ((dbfID, k) :: cs, bs2)

/-- Embeds the group-3 iteration of `Decode`'s card loop: read `n`
(DBF ID, explicit count) pairs.  The count is taken verbatim from the
stream; `Decode` performs no validation on it. -/
def parsePairs : Nat → List Nat → Except DecodeError (List (Nat × Nat) × List Nat)
  | 0, bs => .ok ([], bs)
  | n + 1, bs => do
    let (dbfID, bs1) ← readUvarint bs
    let (count, bs2) ← readUvarint bs1
    let (cs, bs3) ← parsePairs n bs2
    .ok ((dbfID, count) :: cs, bs3)

/-- Embeds the `for group := 1; group <= 3` loop of `Decode`: each group
is a length varint followed by that many entries; groups 1 and 2 carry
implicit counts, group 3 explicit ones.  Returns the three groups and
the unconsumed remainder of the stream. -/
def parseCardGroups (bs : List Nat) :
    Except DecodeError (List (Nat × Nat) × List (Nat × Nat) × List (Nat × Nat) × List Nat) := do
  let (n1, bs1) ← readUvarint bs
  let (g1, bs2) ← parseSingles 1 n1 bs1
  let (n2, bs3) ← readUvarint bs2
  let (g2, bs4) ← parseSingles 2 n2 bs3
  let (n3, bs5) ← readUvarint bs4
  let (g3, bs6) ← parsePairs n3 bs5
  .ok (g1, g2, g3, bs6)

/-- Comparison used by the `sort.Slice` calls on card slices: ascending
by DBF ID (the first component). -/
def leById (a b : Nat × Nat) : Prop := a.1 ≤ b.1

instance : DecidableRel leById := fun a b => Nat.decLe a.1 b.1

instance : IsTrans (Nat × Nat) leById := ⟨fun _ _ _ h1 h2 => Nat.le_trans h1 h2⟩

instance : IsTotal (Nat × Nat) leById := ⟨fun a b => Nat.le_total a.1 b.1⟩

/-- The card sort performed by both `Decode` and `Encode`:
`sort.Slice(cards, func(i, j int) bool { return cards[i][0] < cards[j][0] })`.
`sort.Slice` documents no stability guarantee, so `List.insertionSort`
here fixes only one admissible resolution of ties between distinct
entries sharing a DBF ID; every theorem below whose conclusion could
depend on that resolution either concludes only permutation-and-
sortedness facts or carries a hypothesis (equal-id entries equal) under
which all correct sorts produce the same list. -/
def sortById (cards : List (Nat × Nat)) : List (Nat × Nat) :=
  cards.insertionSort leById

/-- The hero sort performed by both `Decode` and `Encode`:
`sort.Slice(heroes, func(i, j int) bool { return heroes[i] < heroes[j] })`. -/
def sortHeroes (heroes : List Nat) : List Nat :=
  heroes.insertionSort (· ≤ ·)

/-- Embeds `Decode` from the base64-decoded byte stream onwards: read the
four header varints, validate the reserved and version fields, read the
heroes and the three card groups, and return the deck with heroes and
cards sorted.  Bytes after group 3 are ignored. -/
def decodeBytes (bs : List Nat) : Except DecodeError Deck := do
  let (reserved, bs1) ← readUvarint bs
  let (version, bs2) ← readUvarint bs1
  let (format, bs3) ← readUvarint bs2
  let (heroCount, bs4) ← readUvarint bs3
  if reserved ≠ 0 then .error (.invalidReserved reserved)
  else if version ≠ 1 then .error (.unsupportedVersion version)
  else do
    let (heroes, bs5) ← readUvarints heroCount bs4
    let (g1, g2, g3, _) ← parseCardGroups bs5
    .ok ⟨format, sortHeroes heroes, sortById (g1 ++ g2 ++ g3)⟩

/-- Embeds the card-gathering loop of `Encode`: walk the cards in input
order, rejecting the first entry whose count is below one, and otherwise
distribute entries over the three groups keyed by count (1, 2, or any
other value).  Like the Go `map[int][][2]uint64` built with `append`,
each group preserves the input order of its members. -/
def groupCards : List (Nat × Nat) → Except EncodeError (List (Nat × Nat) × List (Nat × Nat) × List (Nat × Nat))
  | [] => .ok ([], [], [])
  | c :: rest =>
    if c.2 < 1 then .error (.invalidCardCount c.1)
    else do
      let (g1, g2, g3) ← groupCards rest
      if c.2 = 1 then .ok (c :: g1, g2, g3)
      else if c.2 = 2 then .ok (g1, c :: g2, g3)
      else .ok (g1, g2, c :: g3)

/-- Bytes written for group 1 or group 2: the length, then each entry's
DBF ID with no explicit count. -/
def writeSingles (g : List (Nat × Nat)) : List Nat :=
  putUvarint g.length ++ g.flatMap fun c => putUvarint c.1

/-- Bytes written for group 3: the length, then each entry's DBF ID
followed by its explicit count. -/
def writePairs (g : List (Nat × Nat)) : List Nat :=
  putUvarint g.length ++ g.flatMap fun c => putUvarint c.1 ++ putUvarint c.2

/-- Embeds `Encode` up to base64 framing: header (reserved 0, version 1,
format, hero count), sorted heroes, then the three card groups, each
sorted by DBF ID.  On a count-0 card nothing is returned (the Go code
stages bytes before validating, but returns `""` with the error). -/
def encodeBytes (deck : Deck) : Except EncodeError (List Nat) := do
  let (g1, g2, g3) ← groupCards deck.cards
  .ok (putUvarint 0 ++ putUvarint 1 ++ putUvarint deck.format ++ putUvarint deck.heroes.length
    ++ (sortHeroes deck.heroes).flatMap putUvarint
    ++ writeSingles (sortById g1) ++ writeSingles (sortById g2) ++ writePairs (sortById g3))

/-- The RFC 4648 standard base64 alphabet used by `base64.StdEncoding`. -/
def b64Alphabet : List Char :=
  "ABCDEFGHIJKLMNOPQRSTUVWXYZabcdefghijklmnopqrstuvwxyz0123456789+/".data

/-- The character encoding a six-bit group. -/
def b64Char (n : Nat) : Char := b64Alphabet.getD n '?'

/-- The six-bit group encoded by a character, if any. -/
def b64CharIndex (c : Char) : Option Nat := b64Alphabet.findIdx? fun x => x = c

/-- Embeds `base64.NewEncoder(base64.StdEncoding, ...)` followed by
`Close`: three bytes become four characters; a final one- or two-byte
remainder is padded with `=`. -/
def b64EncodeChars : List Nat → List Char
  | [] => []
  | [a] => [b64Char (a / 4), b64Char (a % 4 * 16), '=', '=']
  | [a, b] => [b64Char (a / 4), b64Char (a % 4 * 16 + b / 16), b64Char (b % 16 * 4), '=']
  | a :: b :: c :: rest =>
    b64Char (a / 4) :: b64Char (a % 4 * 16 + b / 16) :: b64Char (b % 16 * 4 + c / 64)
      :: b64Char (c % 64) :: b64EncodeChars rest

/-- Embeds `base64.NewDecoder(base64.StdEncoding, ...)` as a whole-input
transform: four characters at a time, with `=` padding allowed only in
the final quantum.  Like Go's decoder, unused trailing bits in a padded
quantum are not validated. -/
def b64DecodeChars : List Char → Option (List Nat)
  | [] => some []
  | c1 :: c2 :: c3 :: c4 :: rest =>
    if c3 = '=' ∧ c4 = '=' ∧ rest = [] then
      match b64CharIndex c1, b64CharIndex c2 with
      | some n1, some n2 => some [n1 * 4 + n2 / 16]
      | _, _ => none
    else if c4 = '=' ∧ rest = [] then
      match b64CharIndex c1, b64CharIndex c2, b64CharIndex c3 with
      | some n1, some n2, some n3 => some [n1 * 4 + n2 / 16, n2 % 16 * 16 + n3 / 4]
      | _, _, _ => none
    else
      match b64CharIndex c1, b64CharIndex c2, b64CharIndex c3, b64CharIndex c4 with
      | some n1, some n2, some n3, some n4 =>
        match b64DecodeChars rest with
        | some bytes => some ((n1 * 4 + n2 / 16) :: (n2 % 16 * 16 + n3 / 4) :: (n3 % 4 * 64 + n4) :: bytes)
        | none => none
      | _, _, _, _ => none
  | _ => none

/-- Embeds the exported `Encode`: the byte layout wrapped in base64. -/
def Encode (deck : Deck) : Except EncodeError String :=
  (encodeBytes deck).map fun bs => String.mk (b64EncodeChars bs)

/-- Embeds the exported `Decode`: base64-decode the text, then decode the
byte layout. -/
def Decode (deckstring : String) : Except DecodeError Deck :=
  match b64DecodeChars deckstring.data with
  | none => .error .invalidBase64
  | some bs => decodeBytes bs

/-- All numeric fields of a deck fit in Go's `uint64`, and the slice
lengths do as well (trivially true of any value of the Go type `Deck`). -/
def ValidDeck (deck : Deck) : Prop :=
  deck.format < 2 ^ 64 ∧ deck.heroes.length < 2 ^ 64 ∧ (∀ h ∈ deck.heroes, h < 2 ^ 64) ∧
    deck.cards.length < 2 ^ 64 ∧ ∀ c ∈ deck.cards, c.1 < 2 ^ 64 ∧ c.2 < 2 ^ 64

instance (deck : Deck) : Decidable (ValidDeck deck) := by
  unfold ValidDeck; infer_instance

instance {ε α : Type} [DecidableEq ε] [DecidableEq α] : DecidableEq (Except ε α) := fun a b =>
  match a, b with
  | .ok x, .ok y =>
    if h : x = y then isTrue (by rw [h]) else isFalse fun hh => by cases hh; exact h rfl
  | .error e, .error f =>
    if h : e = f then isTrue (by rw [h]) else isFalse fun hh => by cases hh; exact h rfl
  | .ok _, .error _ => isFalse fun hh => by cases hh
  | .error _, .ok _ => isFalse fun hh => by cases hh

/-- The deck produced by decoding the canonical encoding of `d`: the
format, the heroes sorted, and the three count groups each sorted by id,
concatenated and sorted by id again. -/
def canonicalize (d : Deck) : Deck :=
  ⟨d.format, sortHeroes d.heroes,
    sortById (sortById (d.cards.filter fun x => x.2 = 1)
      ++ sortById (d.cards.filter fun x => x.2 = 2)
      ++ sortById (d.cards.filter fun x => 3 ≤ x.2))⟩

/-! ### Varint lemmas -/

theorem putUvarint_small {x : Nat} (h : x < 128) : putUvarint x = [x] := by
  rw [putUvarint]; simp [h]

theorem putUvarint_large {x : Nat} (h : ¬ x < 128) :
    putUvarint x = (x % 128 + 128) :: putUvarint (x / 128) := by
  rw [putUvarint]; simp [h]

theorem putUvarint_lt_256 : ∀ (x : Nat), ∀ b ∈ putUvarint x, b < 256 := by
  intro x
  induction x using Nat.strong_induction_on with
  | _ x ih =>
    by_cases h : x < 128
    · rw [putUvarint_small h]
      intro b hb
      simp only [List.mem_singleton] at hb
      omega
    · rw [putUvarint_large h]
      intro b hb
      rcases List.mem_cons.mp hb with hb | hb
      · omega
      · exact ih (x / 128) (Nat.div_lt_self (by omega) (by omega)) b hb

theorem readUvarintAux_put : ∀ (v : Nat), ∀ (i x s : Nat) (rest : List Nat),
    v < 2 ^ (64 - 7 * i) → i ≤ 9 →
    readUvarintAux (putUvarint v ++ rest) i x s = .ok (x + v * 2 ^ s, rest) := by
  intro v
  induction v using Nat.strong_induction_on with
  | _ v ih =>
    intro i x s rest hv hi
    by_cases h : v < 128
    · rw [putUvarint_small h]
      have hi10 : ¬ 10 ≤ i := by omega
      have hfinal : ¬ (i = 9 ∧ 1 < v) := by
        rintro ⟨rfl, hb⟩
        have : (64 : Nat) - 7 * 9 = 1 := by norm_num
        rw [this] at hv
        omega
      simp [readUvarintAux, hi10, h, hfinal]
    · rw [putUvarint_large h]
      have hi8 : i ≤ 8 := by
        by_contra hgt
        have hi9 : i = 9 := by omega
        have : (64 : Nat) - 7 * 9 = 1 := by norm_num
        rw [hi9, this] at hv
        omega
      have hi10 : ¬ 10 ≤ i := by omega
      have hb : ¬ (v % 128 + 128) < 128 := by omega
      have hrec : v / 128 < 2 ^ (64 - 7 * (i + 1)) := by
        have h128 : (128 : Nat) = 2 ^ 7 := by norm_num
        rw [Nat.div_lt_iff_lt_mul (by omega : 0 < 128)]
        calc v < 2 ^ (64 - 7 * i) := hv
          _ = 2 ^ (64 - 7 * (i + 1)) * 128 := by
            rw [h128, ← pow_add]
            congr 1
            omega
      have := ih (v / 128) (Nat.div_lt_self (by omega) (by omega)) (i + 1)
        (x + (v % 128 + 128) % 128 * 2 ^ s) (s + 7) rest hrec (by omega)
      simp only [readUvarintAux, List.cons_append, hi10, if_false, hb]
      simp only [List.append_eq]
      rw [this]
      have hmod : (v % 128 + 128) % 128 = v % 128 := by omega
      have hsplit : x + (v % 128 + 128) % 128 * 2 ^ s + v / 128 * 2 ^ (s + 7) = x + v * 2 ^ s := by
        rw [hmod, pow_add]
        have hdm : 128 * (v / 128) + v % 128 = v := Nat.div_add_mod v 128
        calc x + v % 128 * 2 ^ s + v / 128 * (2 ^ s * 2 ^ 7)
            = x + (v % 128 + 2 ^ 7 * (v / 128)) * 2 ^ s := by ring
          _ = x + v * 2 ^ s := by
            congr 2
            norm_num
            omega
      rw [hsplit]

theorem readUvarint_put (v : Nat) (rest : List Nat) (hv : v < 2 ^ 64) :
    readUvarint (putUvarint v ++ rest) = .ok (v, rest) := by
  have := readUvarintAux_put v 0 0 0 rest (by simpa using hv) (by omega)
  simpa [readUvarint] using this

/-- The emitted bytes are the base-128 digits of the value, least
significant first (seven data bits per byte). -/
theorem putUvarint_digits : ∀ (v : Nat),
    (putUvarint v).map (fun b => b % 128) = if v = 0 then [0] else Nat.digits 128 v := by
  intro v
  induction v using Nat.strong_induction_on with
  | _ v ih =>
    by_cases h : v < 128
    · rw [putUvarint_small h]
      rcases Nat.eq_zero_or_pos v with rfl | hpos
      · simp
      · have hne : v ≠ 0 := by omega
        rw [List.map_singleton, if_neg hne, Nat.digits_def' (by norm_num : 1 < 128) hpos]
        rw [Nat.mod_eq_of_lt h, Nat.div_eq_of_lt h]
        simp
    · rw [putUvarint_large h]
      have hne : v ≠ 0 := by omega
      have hdivne : v / 128 ≠ 0 := by
        have := Nat.div_pos (by omega : 128 ≤ v) (by omega : 0 < 128)
        omega
      rw [List.map_cons, ih (v / 128) (Nat.div_lt_self (by omega) (by omega)), if_neg hne,
        if_neg hdivne, Nat.digits_def' (by norm_num : 1 < 128) (by omega : 0 < v)]
      congr 1
      omega

/-- The emitted bytes have the continuation bit set on every byte except
the last, which is below `0x80`. -/
theorem putUvarint_shape : ∀ (v : Nat),
    ∃ pre last, putUvarint v = pre ++ [last] ∧ last < 128 ∧ ∀ b ∈ pre, 128 ≤ b ∧ b < 256 := by
  intro v
  induction v using Nat.strong_induction_on with
  | _ v ih =>
    by_cases h : v < 128
    · exact ⟨[], v, by rw [putUvarint_small h]; simp, h, by simp⟩
    · obtain ⟨pre, last, heq, hlast, hpre⟩ := ih (v / 128) (Nat.div_lt_self (by omega) (by omega))
      refine ⟨(v % 128 + 128) :: pre, last, ?_, hlast, ?_⟩
      · rw [putUvarint_large h, heq]; rfl
      · intro b hb
        rcases List.mem_cons.mp hb with rfl | hb
        · omega
        · exact hpre b hb

/-! ### Reader lemmas: parsing back exactly what was written -/

theorem ok_bind {α β ε : Type} (a : α) (f : α → Except ε β) :
    (Except.ok a >>= f) = f a := rfl

theorem map_ok {α β ε : Type} (a : α) (f : α → β) :
    (Except.ok a : Except ε α).map f = .ok (f a) := rfl

theorem error_bind {α β ε : Type} (e : ε) (f : α → Except ε β) :
    (Except.error e >>= f) = (Except.error e : Except ε β) := rfl

theorem readUvarints_append : ∀ (vs : List Nat) (rest : List Nat),
    (∀ v ∈ vs, v < 2 ^ 64) →
    readUvarints vs.length (vs.flatMap putUvarint ++ rest) = .ok (vs, rest) := by
  intro vs
  induction vs with
  | nil => intro rest _; simp [readUvarints]
  | cons v vs ihv =>
    intro rest h
    have hv : v < 2 ^ 64 := h v (by simp)
    simp only [List.length_cons, List.flatMap_cons, List.append_assoc, readUvarints]
    rw [readUvarint_put v _ hv]
    rw [ok_bind]
    rw [ihv rest fun w hw => h w (by simp [hw])]
    rfl

theorem parseSingles_append (k : Nat) : ∀ (g : List (Nat × Nat)) (rest : List Nat),
    (∀ c ∈ g, c.2 = k) → (∀ c ∈ g, c.1 < 2 ^ 64) →
    parseSingles k g.length (g.flatMap (fun c => putUvarint c.1) ++ rest) = .ok (g, rest) := by
  intro g
  induction g with
  | nil => intro rest _ _; simp [parseSingles]
  | cons c g ihg =>
    intro rest hk hid
    simp only [List.length_cons, List.flatMap_cons, List.append_assoc, parseSingles]
    rw [readUvarint_put c.1 _ (hid c (by simp))]
    rw [ok_bind]
    rw [ihg rest (fun w hw => hk w (by simp [hw])) fun w hw => hid w (by simp [hw])]
    have : (c.1, k) = c := by
      have := hk c (by simp)
      exact Prod.ext rfl this.symm
    rw [this]
    rfl

theorem parsePairs_append : ∀ (g : List (Nat × Nat)) (rest : List Nat),
    (∀ c ∈ g, c.1 < 2 ^ 64 ∧ c.2 < 2 ^ 64) →
    parsePairs g.length (g.flatMap (fun c => putUvarint c.1 ++ putUvarint c.2) ++ rest) = .ok (g, rest) := by
  intro g
  induction g with
  | nil => intro rest _; simp [parsePairs]
  | cons c g ihg =>
    intro rest h
    simp only [List.length_cons, List.flatMap_cons, List.append_assoc, parsePairs]
    rw [readUvarint_put c.1 _ (h c (by simp)).1]
    rw [ok_bind]
    rw [readUvarint_put c.2 _ (h c (by simp)).2]
    rw [ok_bind]
    rw [ihg rest fun w hw => h w (by simp [hw])]
    rfl

/-! ### Sorting helper lemmas -/

theorem sortById_perm (l : List (Nat × Nat)) : (sortById l).Perm l :=
  List.perm_insertionSort leById l

theorem sortById_sorted (l : List (Nat × Nat)) : (sortById l).Pairwise leById :=
  List.sorted_insertionSort leById l

theorem sortById_of_sorted {l : List (Nat × Nat)} (h : l.Pairwise leById) :
    sortById l = l :=
  List.Sorted.insertionSort_eq h

theorem sortHeroes_perm (l : List Nat) : (sortHeroes l).Perm l :=
  List.perm_insertionSort (· ≤ ·) l

theorem sortHeroes_sorted (l : List Nat) : (sortHeroes l).Pairwise (· ≤ ·) :=
  List.sorted_insertionSort (· ≤ ·) l

theorem sortHeroes_of_sorted {l : List Nat} (h : l.Pairwise (· ≤ ·)) :
    sortHeroes l = l :=
  List.Sorted.insertionSort_eq h

theorem sortHeroes_length (l : List Nat) : (sortHeroes l).length = l.length :=
  (sortHeroes_perm l).length_eq

/-! ### Encoder group lemmas -/

theorem groupCards_eq_filters : ∀ (cards : List (Nat × Nat)),
    (∀ c ∈ cards, 1 ≤ c.2) →
    groupCards cards = .ok (cards.filter (fun x => x.2 = 1), cards.filter (fun x => x.2 = 2),
      cards.filter fun x => 3 ≤ x.2) := by
  intro cards
  induction cards with
  | nil => intro _; simp [groupCards]
  | cons c rest ihc =>
    intro h
    have hc : 1 ≤ c.2 := h c (by simp)
    have hlt : ¬ c.2 < 1 := by omega
    rw [groupCards, if_neg hlt, ihc fun w hw => h w (by simp [hw]), ok_bind]
    by_cases h1 : c.2 = 1
    · simp [List.filter_cons, h1]
    · by_cases h2 : c.2 = 2
      · simp [List.filter_cons, h1, h2]
      · have h3 : 3 ≤ c.2 := by omega
        simp [List.filter_cons, h1, h2, h3]

/-- The first card with count zero aborts grouping with its DBF ID. -/
theorem groupCards_error : ∀ (cards : List (Nat × Nat)) (c₀ : Nat × Nat),
    cards.find? (fun c => c.2 = 0) = some c₀ →
    groupCards cards = .error (.invalidCardCount c₀.1) := by
  intro cards
  induction cards with
  | nil => intro c₀ h; simp [List.find?] at h
  | cons c rest ihc =>
    intro c₀ h
    by_cases hc : c.2 = 0
    · rw [List.find?_cons_of_pos _ (by simp [hc])] at h
      cases h
      rw [groupCards, if_pos (by omega)]
    · rw [List.find?_cons_of_neg _ (by simp [hc])] at h
      rw [groupCards, if_neg (by omega), ihc c₀ h]
      rfl

/-- The three count-keyed groups partition the card list. -/
theorem filter_partition_perm : ∀ (l : List (Nat × Nat)),
    (∀ c ∈ l, 1 ≤ c.2) →
    (l.filter (fun x => x.2 = 1) ++ l.filter (fun x => x.2 = 2)
      ++ l.filter fun x => 3 ≤ x.2).Perm l := by
  intro l
  induction l with
  | nil => intro _; simp
  | cons c rest ihl =>
    intro h
    have hc : 1 ≤ c.2 := h c (by simp)
    have ih := ihl fun w hw => h w (by simp [hw])
    by_cases h1 : c.2 = 1
    · simpa [List.filter_cons, h1] using ih.cons c
    · by_cases h2 : c.2 = 2
      · simp only [List.filter_cons, h1, h2, decide_eq_true_eq, decide_not,
          Bool.not_false, if_true, if_false, decide_False, decide_True]
        refine List.Perm.trans ?_ (ih.cons c)
        simp [List.append_assoc]
      · have h3 : 3 ≤ c.2 := by omega
        simp only [List.filter_cons, h1, h2, h3, decide_eq_true_eq, decide_not,
          Bool.not_false, if_true, if_false, decide_False, decide_True]
        refine List.Perm.trans ?_ (ih.cons c)
        simpa [List.append_assoc] using
          (@List.perm_middle _ c
            ((rest.filter fun x => decide (x.2 = 1)) ++ rest.filter fun x => decide (x.2 = 2))
            (rest.filter fun x => decide (3 ≤ x.2)))

/-! ### Base64 lemmas -/

theorem b64CharIndex_b64Char : ∀ n < 64, b64CharIndex (b64Char n) = some n := by decide

theorem b64Char_ne_pad : ∀ n < 64, b64Char n ≠ '=' := by decide

theorem b64_roundtrip : ∀ (bs : List Nat), (∀ b ∈ bs, b < 256) →
    b64DecodeChars (b64EncodeChars bs) = some bs
  | [], _ => rfl
  | [a], h => by
    have ha : a < 256 := h a (by simp)
    rw [b64EncodeChars, b64DecodeChars]
    rw [if_pos ⟨rfl, rfl, rfl⟩]
    rw [b64CharIndex_b64Char _ (by omega), b64CharIndex_b64Char _ (by omega)]
    simp only [Option.some.injEq, List.cons.injEq, and_true]
    omega
  | [a, b], h => by
    have ha : a < 256 := h a (by simp)
    have hb : b < 256 := h b (by simp)
    have hne : b64Char (b % 16 * 4) ≠ '=' := b64Char_ne_pad _ (by omega)
    rw [b64EncodeChars, b64DecodeChars]
    rw [if_neg (by simp [hne]), if_pos ⟨rfl, rfl⟩]
    rw [b64CharIndex_b64Char _ (by omega), b64CharIndex_b64Char _ (by omega),
      b64CharIndex_b64Char _ (by omega)]
    simp only [Option.some.injEq, List.cons.injEq, and_true]
    constructor
    · omega
    · omega
  | a :: b :: c :: rest, h => by
    have ha : a < 256 := h a (by simp)
    have hb : b < 256 := h b (by simp)
    have hc : c < 256 := h c (by simp)
    have hne3 : b64Char (b % 16 * 4 + c / 64) ≠ '=' := b64Char_ne_pad _ (by omega)
    have hne4 : b64Char (c % 64) ≠ '=' := b64Char_ne_pad _ (by omega)
    rw [b64EncodeChars, b64DecodeChars]
    rw [if_neg (by simp [hne3]), if_neg (by simp [hne4])]
    rw [b64CharIndex_b64Char _ (by omega), b64CharIndex_b64Char _ (by omega),
      b64CharIndex_b64Char _ (by omega), b64CharIndex_b64Char _ (by omega)]
    rw [b64_roundtrip rest fun w hw => h w (by simp [hw])]
    simp only [Option.some.injEq, List.cons.injEq, and_true]
    refine ⟨by omega, by omega, by omega⟩

/-! ### Byte bounds of the encoder output -/

theorem writeSingles_lt_256 (g : List (Nat × Nat)) : ∀ b ∈ writeSingles g, b < 256 := by
  intro b hb
  rcases List.mem_append.mp hb with hb | hb
  · exact putUvarint_lt_256 _ b hb
  · obtain ⟨c, _, hc⟩ := List.mem_flatMap.mp hb
    exact putUvarint_lt_256 _ b hc

theorem writePairs_lt_256 (g : List (Nat × Nat)) : ∀ b ∈ writePairs g, b < 256 := by
  intro b hb
  rcases List.mem_append.mp hb with hb | hb
  · exact putUvarint_lt_256 _ b hb
  · obtain ⟨c, _, hc⟩ := List.mem_flatMap.mp hb
    rcases List.mem_append.mp hc with hc | hc
    · exact putUvarint_lt_256 _ b hc
    · exact putUvarint_lt_256 _ b hc

theorem encodeBytes_lt_256 (deck : Deck) (bs : List Nat) (henc : encodeBytes deck = .ok bs) :
    ∀ b ∈ bs, b < 256 := by
  unfold encodeBytes at henc
  cases hg : groupCards deck.cards with
  | error e => rw [hg] at henc; exact absurd henc (by simp [ok_bind]; exact fun h => by cases h)
  | ok gs =>
    rw [hg, ok_bind] at henc
    obtain ⟨g1, g2, g3⟩ := gs
    simp only [Except.ok.injEq] at henc
    subst henc
    intro b hb
    simp only [List.append_assoc, List.mem_append] at hb
    rcases hb with hb | hb | hb | hb | hb | hb | hb
    · exact putUvarint_lt_256 _ b hb
    · exact putUvarint_lt_256 _ b hb
    · exact putUvarint_lt_256 _ b hb
    · exact putUvarint_lt_256 _ b hb
    · obtain ⟨v, _, hv⟩ := List.mem_flatMap.mp hb
      exact putUvarint_lt_256 _ b hv
    · exact writeSingles_lt_256 _ b hb
    · rcases hb with hb | hb
      · exact writeSingles_lt_256 _ b hb
      · exact writePairs_lt_256 _ b hb

/-! ### The canonical byte layout of the encoder -/

theorem mem_sortById {a : Nat × Nat} {l : List (Nat × Nat)} : a ∈ sortById l ↔ a ∈ l :=
  List.mem_insertionSort leById

theorem mem_sortHeroes {a : Nat} {l : List Nat} : a ∈ sortHeroes l ↔ a ∈ l :=
  List.mem_insertionSort (· ≤ ·)

theorem sortById_length (l : List (Nat × Nat)) : (sortById l).length = l.length :=
  (sortById_perm l).length_eq

theorem encodeBytes_ok (d : Deck) (hcnt : ∀ c ∈ d.cards, 1 ≤ c.2) :
    encodeBytes d = .ok (putUvarint 0 ++ putUvarint 1 ++ putUvarint d.format
      ++ putUvarint d.heroes.length ++ (sortHeroes d.heroes).flatMap putUvarint
      ++ writeSingles (sortById (d.cards.filter fun x => x.2 = 1))
      ++ writeSingles (sortById (d.cards.filter fun x => x.2 = 2))
      ++ writePairs (sortById (d.cards.filter fun x => 3 ≤ x.2))) := by
  unfold encodeBytes
  rw [groupCards_eq_filters d.cards hcnt, ok_bind]

theorem decodeBytes_encodeBytes (d : Deck) (hval : ValidDeck d) (rest : List Nat) :
    decodeBytes (putUvarint 0 ++ putUvarint 1 ++ putUvarint d.format
      ++ putUvarint d.heroes.length ++ (sortHeroes d.heroes).flatMap putUvarint
      ++ writeSingles (sortById (d.cards.filter fun x => x.2 = 1))
      ++ writeSingles (sortById (d.cards.filter fun x => x.2 = 2))
      ++ writePairs (sortById (d.cards.filter fun x => 3 ≤ x.2)) ++ rest)
    = .ok ⟨d.format, sortHeroes d.heroes,
      sortById (sortById (d.cards.filter fun x => x.2 = 1)
        ++ sortById (d.cards.filter fun x => x.2 = 2)
        ++ sortById (d.cards.filter fun x => 3 ≤ x.2))⟩ := by
  obtain ⟨hfmt, hhlen, hh, hclen, hc⟩ := hval
  have hlen1 : (sortById (d.cards.filter fun x => x.2 = 1)).length < 2 ^ 64 := by
    rw [sortById_length]
    exact lt_of_le_of_lt (List.length_filter_le _ _) hclen
  have hlen2 : (sortById (d.cards.filter fun x => x.2 = 2)).length < 2 ^ 64 := by
    rw [sortById_length]
    exact lt_of_le_of_lt (List.length_filter_le _ _) hclen
  have hlen3 : (sortById (d.cards.filter fun x => 3 ≤ x.2)).length < 2 ^ 64 := by
    rw [sortById_length]
    exact lt_of_le_of_lt (List.length_filter_le _ _) hclen
  have hk1 : ∀ c ∈ sortById (d.cards.filter fun x => x.2 = 1), c.2 = 1 := by
    intro c hcm
    have := (List.mem_filter.mp (mem_sortById.mp hcm)).2
    simpa using this
  have hk2 : ∀ c ∈ sortById (d.cards.filter fun x => x.2 = 2), c.2 = 2 := by
    intro c hcm
    have := (List.mem_filter.mp (mem_sortById.mp hcm)).2
    simpa using this
  have hid1 : ∀ c ∈ sortById (d.cards.filter fun x => x.2 = 1), c.1 < 2 ^ 64 := by
    intro c hcm
    exact (hc c (List.mem_filter.mp (mem_sortById.mp hcm)).1).1
  have hid2 : ∀ c ∈ sortById (d.cards.filter fun x => x.2 = 2), c.1 < 2 ^ 64 := by
    intro c hcm
    exact (hc c (List.mem_filter.mp (mem_sortById.mp hcm)).1).1
  have hid3 : ∀ c ∈ sortById (d.cards.filter fun x => 3 ≤ x.2), c.1 < 2 ^ 64 ∧ c.2 < 2 ^ 64 := by
    intro c hcm
    exact hc c (List.mem_filter.mp (mem_sortById.mp hcm)).1
  unfold decodeBytes parseCardGroups writeSingles writePairs
  simp only [List.append_assoc]
  rw [readUvarint_put 0 _ (by norm_num), ok_bind]
  dsimp only
  rw [readUvarint_put 1 _ (by norm_num), ok_bind]
  dsimp only
  rw [readUvarint_put d.format _ hfmt, ok_bind]
  dsimp only
  rw [readUvarint_put d.heroes.length _ hhlen, ok_bind]
  dsimp only
  rw [if_neg (by norm_num : ¬ (0 : Nat) ≠ 0), if_neg (by norm_num : ¬ (1 : Nat) ≠ 1)]
  rw [show d.heroes.length = (sortHeroes d.heroes).length from (sortHeroes_length d.heroes).symm]
  rw [readUvarints_append (sortHeroes d.heroes) _ fun v hv => hh v (mem_sortHeroes.mp hv), ok_bind]
  dsimp only
  rw [readUvarint_put _ _ hlen1, ok_bind]
  dsimp only
  rw [parseSingles_append 1 _ _ hk1 hid1, ok_bind]
  dsimp only
  rw [readUvarint_put _ _ hlen2, ok_bind]
  dsimp only
  rw [parseSingles_append 2 _ _ hk2 hid2, ok_bind]
  dsimp only
  rw [readUvarint_put _ _ hlen3, ok_bind]
  dsimp only
  rw [parsePairs_append _ _ hid3, ok_bind]
  dsimp only
  rw [ok_bind]
  rw [sortHeroes_of_sorted (sortHeroes_sorted d.heroes)]

/-! ### String-level round trip -/

theorem decodeBytes_encodeBytes_nil (d : Deck) (hval : ValidDeck d) :
    decodeBytes (putUvarint 0 ++ putUvarint 1 ++ putUvarint d.format
      ++ putUvarint d.heroes.length ++ (sortHeroes d.heroes).flatMap putUvarint
      ++ writeSingles (sortById (d.cards.filter fun x => x.2 = 1))
      ++ writeSingles (sortById (d.cards.filter fun x => x.2 = 2))
      ++ writePairs (sortById (d.cards.filter fun x => 3 ≤ x.2)))
    = .ok ⟨d.format, sortHeroes d.heroes,
      sortById (sortById (d.cards.filter fun x => x.2 = 1)
        ++ sortById (d.cards.filter fun x => x.2 = 2)
        ++ sortById (d.cards.filter fun x => 3 ≤ x.2))⟩ := by
  have h := decodeBytes_encodeBytes d hval []
  rwa [List.append_nil] at h

theorem Decode_Encode (d : Deck) (hval : ValidDeck d) (hcnt : ∀ c ∈ d.cards, 1 ≤ c.2)
    (s : String) (henc : Encode d = .ok s) :
    Decode s = .ok (canonicalize d) := by
  rw [Encode, encodeBytes_ok d hcnt] at henc
  rw [map_ok] at henc
  rw [Except.ok.injEq] at henc
  subst henc
  rw [Decode]
  rw [show (String.mk (b64EncodeChars _)).data = b64EncodeChars _ from rfl]
  rw [b64_roundtrip _ (encodeBytes_lt_256 d _ (encodeBytes_ok d hcnt))]
  exact decodeBytes_encodeBytes_nil d hval

theorem canonicalize_format (d : Deck) : (canonicalize d).format = d.format := rfl

theorem canonicalize_heroes_perm (d : Deck) : (canonicalize d).heroes.Perm d.heroes :=
  sortHeroes_perm d.heroes

theorem canonicalize_cards_perm (d : Deck) (hcnt : ∀ c ∈ d.cards, 1 ≤ c.2) :
    (canonicalize d).cards.Perm d.cards := by
  refine (sortById_perm _).trans ?_
  exact (((sortById_perm (d.cards.filter fun x => x.2 = 1)).append
    (sortById_perm (d.cards.filter fun x => x.2 = 2))).append
      (sortById_perm (d.cards.filter fun x => 3 ≤ x.2))).trans
    (filter_partition_perm d.cards hcnt)

/-! ### Shape of every successful decode -/

theorem parseSingles_counts (k : Nat) : ∀ (n : Nat) (bs : List Nat) (g : List (Nat × Nat))
    (rest : List Nat), parseSingles k n bs = .ok (g, rest) → ∀ c ∈ g, c.2 = k := by
  intro n
  induction n with
  | zero =>
    intro bs g rest h c hcm
    rw [parseSingles, Except.ok.injEq, Prod.mk.injEq] at h
    obtain ⟨h1, -⟩ := h
    subst h1
    simp at hcm
  | succ n ih =>
    intro bs g rest h c hcm
    rw [parseSingles] at h
    cases h1 : readUvarint bs with
    | error e => rw [h1, error_bind] at h; cases h
    | ok p =>
      obtain ⟨v, bs1⟩ := p
      rw [h1, ok_bind] at h
      dsimp only at h
      cases h2 : parseSingles k n bs1 with
      | error e => rw [h2, error_bind] at h; cases h
      | ok q =>
        obtain ⟨g2, bs2⟩ := q
        rw [h2, ok_bind] at h
        dsimp only at h
        rw [Except.ok.injEq, Prod.mk.injEq] at h
        obtain ⟨h3, -⟩ := h
        subst h3
        rcases List.mem_cons.mp hcm with rfl | hcm2
        · rfl
        · exact ih bs1 g2 bs2 h2 c hcm2

theorem parseCardGroups_counts (bs : List Nat) (g1 g2 g3 : List (Nat × Nat)) (rest : List Nat)
    (h : parseCardGroups bs = .ok (g1, g2, g3, rest)) :
    (∀ c ∈ g1, c.2 = 1) ∧ (∀ c ∈ g2, c.2 = 2) := by
  rw [parseCardGroups] at h
  cases ha : readUvarint bs with
  | error e => rw [ha, error_bind] at h; cases h
  | ok p =>
    obtain ⟨n1, bs1⟩ := p
    rw [ha, ok_bind] at h
    dsimp only at h
    cases hb : parseSingles 1 n1 bs1 with
    | error e => rw [hb, error_bind] at h; cases h
    | ok q =>
      obtain ⟨h1, bs2⟩ := q
      rw [hb, ok_bind] at h
      dsimp only at h
      cases hcr : readUvarint bs2 with
      | error e => rw [hcr, error_bind] at h; cases h
      | ok r =>
        obtain ⟨n2, bs3⟩ := r
        rw [hcr, ok_bind] at h
        dsimp only at h
        cases hd : parseSingles 2 n2 bs3 with
        | error e => rw [hd, error_bind] at h; cases h
        | ok u =>
          obtain ⟨h2, bs4⟩ := u
          rw [hd, ok_bind] at h
          dsimp only at h
          cases he : readUvarint bs4 with
          | error e => rw [he, error_bind] at h; cases h
          | ok v =>
            obtain ⟨n3, bs5⟩ := v
            rw [he, ok_bind] at h
            dsimp only at h
            cases hf : parsePairs n3 bs5 with
            | error e => rw [hf, error_bind] at h; cases h
            | ok w =>
              obtain ⟨h3, bs6⟩ := w
              rw [hf, ok_bind] at h
              dsimp only at h
              rw [Except.ok.injEq, Prod.mk.injEq, Prod.mk.injEq, Prod.mk.injEq] at h
              obtain ⟨hg1, hg2, -, -⟩ := h
              subst hg1
              subst hg2
              exact ⟨parseSingles_counts 1 n1 bs1 _ bs2 hb,
                parseSingles_counts 2 n2 bs3 _ bs4 hd⟩

theorem decodeBytes_ok_shape (bs : List Nat) (d : Deck) (h : decodeBytes bs = .ok d) :
    ∃ format heroes g1 g2 g3,
      d = ⟨format, sortHeroes heroes, sortById (g1 ++ g2 ++ g3)⟩ ∧
      (∀ c ∈ g1, c.2 = 1) ∧ (∀ c ∈ g2, c.2 = 2) := by
  rw [decodeBytes] at h
  cases ha : readUvarint bs with
  | error e => rw [ha, error_bind] at h; cases h
  | ok p =>
    obtain ⟨reserved, bs1⟩ := p
    rw [ha, ok_bind] at h
    dsimp only at h
    cases hb : readUvarint bs1 with
    | error e => rw [hb, error_bind] at h; cases h
    | ok q =>
      obtain ⟨version, bs2⟩ := q
      rw [hb, ok_bind] at h
      dsimp only at h
      cases hcr : readUvarint bs2 with
      | error e => rw [hcr, error_bind] at h; cases h
      | ok r =>
        obtain ⟨format, bs3⟩ := r
        rw [hcr, ok_bind] at h
        dsimp only at h
        cases hd : readUvarint bs3 with
        | error e => rw [hd, error_bind] at h; cases h
        | ok u =>
          obtain ⟨heroCount, bs4⟩ := u
          rw [hd, ok_bind] at h
          dsimp only at h
          by_cases hres : reserved ≠ 0
          · rw [if_pos hres] at h; cases h
          · rw [if_neg hres] at h
            by_cases hver : version ≠ 1
            · rw [if_pos hver] at h; cases h
            · rw [if_neg hver] at h
              cases he : readUvarints heroCount bs4 with
              | error e => rw [he, error_bind] at h; cases h
              | ok v =>
                obtain ⟨heroes, bs5⟩ := v
                rw [he, ok_bind] at h
                dsimp only at h
                cases hf : parseCardGroups bs5 with
                | error e => rw [hf, error_bind] at h; cases h
                | ok w =>
                  obtain ⟨g1, g2, g3, bs6⟩ := w
                  rw [hf, ok_bind] at h
                  dsimp only at h
                  rw [Except.ok.injEq] at h
                  obtain ⟨hc1, hc2⟩ := parseCardGroups_counts bs5 g1 g2 g3 bs6 hf
                  exact ⟨format, heroes, g1, g2, g3, h.symm, hc1, hc2⟩

/-! ### Error propagation helpers -/

theorem map_error {α β ε : Type} (e : ε) (f : α → β) :
    (Except.error e : Except ε α).map f = .error e := rfl

theorem encodeBytes_error (d : Deck) (c₀ : Nat × Nat)
    (hfind : d.cards.find? (fun c => c.2 = 0) = some c₀) :
    encodeBytes d = .error (.invalidCardCount c₀.1) := by
  rw [encodeBytes, groupCards_error d.cards c₀ hfind, error_bind]

theorem Encode_error (d : Deck) (c₀ : Nat × Nat)
    (hfind : d.cards.find? (fun c => c.2 = 0) = some c₀) :
    Encode d = .error (.invalidCardCount c₀.1) := by
  rw [Encode, encodeBytes_error d c₀ hfind, map_error]

/-! ### Ordered key-injective lists -/

theorem eq_of_perm_of_sorted_keyInj : ∀ (l1 l2 : List (Nat × Nat)),
    l1.Perm l2 → l1.Pairwise leById → l2.Pairwise leById →
    (∀ a ∈ l1, ∀ b ∈ l1, a.1 = b.1 → a = b) → l1 = l2 := by
  intro l1
  induction l1 with
  | nil =>
    intro l2 hp _ _ _
    exact hp.nil_eq
  | cons a t1 ih =>
    intro l2 hp hs1 hs2 hinj
    cases l2 with
    | nil => cases hp.symm.nil_eq
    | cons b t2 =>
      have hab : a = b := by
        by_cases heq : a = b
        · exact heq
        · have hamem : a ∈ b :: t2 := hp.mem_iff.mp (by simp)
          have hbmem : b ∈ a :: t1 := hp.mem_iff.mpr (by simp)
          have ha2 : a ∈ t2 := by
            rcases List.mem_cons.mp hamem with h | h
            · exact absurd h heq
            · exact h
          have hb1 : b ∈ t1 := by
            rcases List.mem_cons.mp hbmem with h | h
            · exact absurd h.symm heq
            · exact h
          have h1 : leById a b := List.rel_of_pairwise_cons hs1 hb1
          have h2 : leById b a := List.rel_of_pairwise_cons hs2 ha2
          exact hinj a (by simp) b (List.mem_cons_of_mem a hb1) (Nat.le_antisymm h1 h2)
      subst hab
      have ht : t1.Perm t2 := hp.cons_inv
      rw [ih t2 ht hs1.of_cons hs2.of_cons fun x hx y hy hxy =>
        hinj x (List.mem_cons_of_mem a hx) y (List.mem_cons_of_mem a hy) hxy]

/-! ### Claim theorems -/

/-- C1: for every deck `d` (with `uint64`-ranged fields) in which every
card entry has count at least 1, `Encode d` succeeds, `Decode` of the
result succeeds, and it returns the deck with the same format, the
heroes sorted ascending by value, and the cards sorted ascending by
identifier (a permutation of the input entries in non-decreasing
identifier order; the original input order is not preserved). -/
theorem claim_c1_encode_decode (d : Deck) (hval : ValidDeck d)
    (hcnt : ∀ c ∈ d.cards, 1 ≤ c.2) :
    ∃ s d2, Encode d = .ok s ∧ Decode s = .ok d2 ∧
      d2.format = d.format ∧
      d2.heroes.Perm d.heroes ∧ d2.heroes.Pairwise (· ≤ ·) ∧
      d2.cards.Perm d.cards ∧ d2.cards.Pairwise (fun a b => a.1 ≤ b.1) := by
  have hs : Encode d = .ok (String.mk (b64EncodeChars (putUvarint 0 ++ putUvarint 1
      ++ putUvarint d.format ++ putUvarint d.heroes.length
      ++ (sortHeroes d.heroes).flatMap putUvarint
      ++ writeSingles (sortById (d.cards.filter fun x => x.2 = 1))
      ++ writeSingles (sortById (d.cards.filter fun x => x.2 = 2))
      ++ writePairs (sortById (d.cards.filter fun x => 3 ≤ x.2))))) := by
    rw [Encode, encodeBytes_ok d hcnt, map_ok]
  refine ⟨_, canonicalize d, hs, Decode_Encode d hval hcnt _ hs, rfl,
    canonicalize_heroes_perm d, ?_, canonicalize_cards_perm d hcnt, ?_⟩
  · exact sortHeroes_sorted d.heroes
  · exact sortById_sorted _

theorem claim_c1_witness :
    ∃ s d2, Encode ⟨2, [31, 5], [(9, 2), (4, 1), (7, 3)]⟩ = .ok s ∧ Decode s = .ok d2 ∧
      d2.format = (⟨2, [31, 5], [(9, 2), (4, 1), (7, 3)]⟩ : Deck).format ∧
      d2.heroes.Perm [31, 5] ∧ d2.heroes.Pairwise (· ≤ ·) ∧
      d2.cards.Perm [(9, 2), (4, 1), (7, 3)] ∧ d2.cards.Pairwise (fun a b => a.1 ≤ b.1) :=
  claim_c1_encode_decode ⟨2, [31, 5], [(9, 2), (4, 1), (7, 3)]⟩ (by decide) (by decide)

/-- C4: `Encode` fails exactly when some card entry has count 0, the
error is `invalidCardCount` naming the first such entry's identifier,
and no deckstring is returned on failure. -/
theorem claim_c4_encode_count_validation (d : Deck) :
    ((∃ e, Encode d = .error e) ↔ ∃ c ∈ d.cards, c.2 = 0) ∧
    ∀ c₀, d.cards.find? (fun c => c.2 = 0) = some c₀ →
      Encode d = .error (.invalidCardCount c₀.1) := by
  constructor
  · constructor
    · rintro ⟨e, he⟩
      by_contra hno
      push_neg at hno
      have hcnt : ∀ c ∈ d.cards, 1 ≤ c.2 := by
        intro c hcm
        have := hno c hcm
        omega
      rw [Encode, encodeBytes_ok d hcnt, map_ok] at he
      cases he
    · rintro ⟨c, hcm, hc0⟩
      have hsome : (d.cards.find? fun c => c.2 = 0).isSome :=
        List.find?_isSome.mpr ⟨c, hcm, by simp [hc0]⟩
      obtain ⟨c₀, hfind⟩ := Option.isSome_iff_exists.mp hsome
      exact ⟨_, Encode_error d c₀ hfind⟩
  · intro c₀ hfind
    exact Encode_error d c₀ hfind

theorem claim_c4_witness :
    Encode ⟨0, [], [(10, 1), (20, 2), (30, 0)]⟩ = .error (.invalidCardCount 30) :=
  (claim_c4_encode_count_validation ⟨0, [], [(10, 1), (20, 2), (30, 0)]⟩).2 (30, 0) (by decide)

/-- C6: every successfully decoded deck has its heroes in non-decreasing
order by value and its cards in non-decreasing order by identifier,
whatever order the identifiers had in the input stream. -/
theorem claim_c6_decode_sorted (s : String) (d : Deck) (h : Decode s = .ok d) :
    d.heroes.Pairwise (· ≤ ·) ∧ d.cards.Pairwise (fun a b => a.1 ≤ b.1) := by
  rw [Decode] at h
  cases hb : b64DecodeChars s.data with
  | none => rw [hb] at h; cases h
  | some bs =>
    rw [hb] at h
    obtain ⟨f, hs, g1, g2, g3, rfl, -, -⟩ := decodeBytes_ok_shape bs d h
    exact ⟨sortHeroes_sorted hs, sortById_sorted (g1 ++ g2 ++ g3)⟩

theorem claim_c6_witness :
    ([1, 2] : List Nat).Pairwise (· ≤ ·) ∧
      ([(1, 1), (2, 1), (3, 1)] : List (Nat × Nat)).Pairwise (fun a b => a.1 ≤ b.1) :=
  claim_c6_decode_sorted "AAEAAgIBAwMCAQAA" ⟨0, [1, 2], [(1, 1), (2, 1), (3, 1)]⟩ (by decide)

/-- C7: after base64 decoding, once the four header varints have been
read, a non-zero reserved field fails decoding with `invalidReserved`,
and otherwise a version other than 1 fails with `unsupportedVersion`;
in both cases no deck is returned. -/
theorem claim_c7_header_validation (bs bs1 bs2 bs3 bs4 : List Nat)
    (reserved version format heroCount : Nat)
    (h1 : readUvarint bs = .ok (reserved, bs1)) (h2 : readUvarint bs1 = .ok (version, bs2))
    (h3 : readUvarint bs2 = .ok (format, bs3)) (h4 : readUvarint bs3 = .ok (heroCount, bs4)) :
    (reserved ≠ 0 → decodeBytes bs = .error (.invalidReserved reserved)) ∧
    (reserved = 0 → version ≠ 1 → decodeBytes bs = .error (.unsupportedVersion version)) := by
  constructor
  · intro hres
    rw [decodeBytes, h1, ok_bind]
    dsimp only
    rw [h2, ok_bind]
    dsimp only
    rw [h3, ok_bind]
    dsimp only
    rw [h4, ok_bind]
    dsimp only
    rw [if_pos hres]
  · intro hres hver
    rw [decodeBytes, h1, ok_bind]
    dsimp only
    rw [h2, ok_bind]
    dsimp only
    rw [h3, ok_bind]
    dsimp only
    rw [h4, ok_bind]
    dsimp only
    rw [if_neg (by simp [hres]), if_pos hver]

theorem claim_c7_witness :
    decodeBytes [5, 9, 0, 0] = .error (.invalidReserved 5) ∧
    decodeBytes [0, 9, 0, 0] = .error (.unsupportedVersion 9) :=
  ⟨(claim_c7_header_validation [5, 9, 0, 0] [9, 0, 0] [0, 0] [0] [] 5 9 0 0
      rfl rfl rfl rfl).1 (by norm_num),
   (claim_c7_header_validation [0, 9, 0, 0] [9, 0, 0] [0, 0] [0] [] 0 9 0 0
      rfl rfl rfl rfl).2 rfl (by norm_num)⟩

/-- C8: the varint writer emits the little-endian base-128 encoding of
`v` (seven data bits per byte, continuation bit on every byte but the
last, 0 encoding as the single byte `0x00`), and the varint reader
returns exactly `v` consuming exactly those bytes. -/
theorem claim_c8_varint_roundtrip (v : Nat) (hv : v < 2 ^ 64) :
    (∀ rest, readUvarint (putUvarint v ++ rest) = .ok (v, rest)) ∧
    putUvarint 0 = [0] ∧
    ((putUvarint v).map fun b => b % 128) = (if v = 0 then [0] else Nat.digits 128 v) ∧
    ∃ pre fin, putUvarint v = pre ++ [fin] ∧ fin < 128 ∧ ∀ b ∈ pre, 128 ≤ b ∧ b < 256 :=
  ⟨fun rest => readUvarint_put v rest hv, putUvarint_small (by norm_num),
    putUvarint_digits v, putUvarint_shape v⟩

theorem claim_c8_witness :
    readUvarint (putUvarint 300 ++ [7]) = .ok (300, [7]) ∧ putUvarint 300 = [172, 2] := by
  refine ⟨(claim_c8_varint_roundtrip 300 (by norm_num)).1 [7], ?_⟩
  rw [putUvarint_large (by norm_num)]
  norm_num [putUvarint_small]

/-- C10: the decoder does not require the byte stream to be fully
consumed: the deckstring whose base64 payload is the complete empty-deck
layout `[0, 1, 0, 0, 0, 0, 0]` followed by the trailing bytes `[7, 9]`
decodes successfully to the same deck as the layout alone, silently
ignoring the trailing bytes. -/
theorem claim_c10_trailing_bytes :
    Decode "AAEAAAAAAAcJ" = .ok ⟨0, [], []⟩ ∧
    b64DecodeChars "AAEAAAAAAAcJ".data = some ([0, 1, 0, 0, 0, 0, 0] ++ [7, 9]) ∧
    decodeBytes [0, 1, 0, 0, 0, 0, 0] = .ok ⟨0, [], []⟩ :=
  ⟨by decide, by decide, by decide⟩

/-- C3 is false on the code: decoding can return a card with count 0,
because a group-3 entry's explicit count is taken from the stream with
no validation.  The deckstring below has one group-3 entry `(5, 0)`. -/
theorem claim_c3_counterexample :
    Decode "AAEAAAAAAQUA" = .ok ⟨0, [], [(5, 0)]⟩ ∧
    ¬ ∀ c ∈ (⟨0, [], [(5, 0)]⟩ : Deck).cards, 1 ≤ c.2 :=
  ⟨by decide, by decide⟩

/-- C3 (amended): every successfully decoded deck splits into the three
wire groups; entries read from group 1 or group 2 always have counts 1
and 2 respectively, while an entry whose count is below 1 can only come
from group 3, whose explicit count field is passed through verbatim. -/
theorem claim_c3_amended (s : String) (d : Deck) (h : Decode s = .ok d) :
    ∃ format heroes g1 g2 g3,
      d = ⟨format, sortHeroes heroes, sortById (g1 ++ g2 ++ g3)⟩ ∧
      (∀ c ∈ g1, c.2 = 1) ∧ (∀ c ∈ g2, c.2 = 2) ∧
      ∀ c ∈ d.cards, 1 ≤ c.2 ∨ c ∈ g3 := by
  rw [Decode] at h
  cases hb : b64DecodeChars s.data with
  | none => rw [hb] at h; cases h
  | some bs =>
    rw [hb] at h
    obtain ⟨f, hs, g1, g2, g3, rfl, hc1, hc2⟩ := decodeBytes_ok_shape bs d h
    refine ⟨f, hs, g1, g2, g3, rfl, hc1, hc2, ?_⟩
    intro c hcm
    have := mem_sortById.mp hcm
    rcases List.mem_append.mp this with hin | hin3
    · rcases List.mem_append.mp hin with hin1 | hin2
      · exact Or.inl (by rw [hc1 c hin1])
      · exact Or.inl (by rw [hc2 c hin2]; omega)
    · exact Or.inr hin3

theorem claim_c3_amended_witness :
    ∃ format heroes g1 g2 g3,
      (⟨0, [], [(5, 0)]⟩ : Deck) = ⟨format, sortHeroes heroes, sortById (g1 ++ g2 ++ g3)⟩ ∧
      (∀ c ∈ g1, c.2 = 1) ∧ (∀ c ∈ g2, c.2 = 2) ∧
      ∀ c ∈ (⟨0, [], [(5, 0)]⟩ : Deck).cards, 1 ≤ c.2 ∨ c ∈ g3 :=
  claim_c3_amended "AAEAAAAAAQUA" ⟨0, [], [(5, 0)]⟩ (by decide)

/-- C9: the encoder partitions cards into the three wire groups purely
by the value of the count: count 1 and count 2 entries go to groups 1
and 2, written without an explicit count varint (`writeSingles`), any
other count at least 3 goes to group 3, written with one explicit count
varint per entry (`writePairs`); a count-0 card is rejected with
`invalidCardCount`. -/
theorem claim_c9_group_partition (d : Deck) :
    ((∀ c ∈ d.cards, 1 ≤ c.2) →
      groupCards d.cards = .ok (d.cards.filter (fun x => x.2 = 1),
        d.cards.filter (fun x => x.2 = 2), d.cards.filter fun x => 3 ≤ x.2) ∧
      encodeBytes d = .ok (putUvarint 0 ++ putUvarint 1 ++ putUvarint d.format
        ++ putUvarint d.heroes.length ++ (sortHeroes d.heroes).flatMap putUvarint
        ++ writeSingles (sortById (d.cards.filter fun x => x.2 = 1))
        ++ writeSingles (sortById (d.cards.filter fun x => x.2 = 2))
        ++ writePairs (sortById (d.cards.filter fun x => 3 ≤ x.2)))) ∧
    ∀ c₀, d.cards.find? (fun c => c.2 = 0) = some c₀ →
      encodeBytes d = .error (.invalidCardCount c₀.1) := by
  constructor
  · intro hcnt
    exact ⟨groupCards_eq_filters d.cards hcnt, encodeBytes_ok d hcnt⟩
  · intro c₀ hfind
    exact encodeBytes_error d c₀ hfind

theorem claim_c9_witness :
    groupCards [(1, 1), (2, 2), (3, 5)] = .ok ([(1, 1)], [(2, 2)], [(3, 5)]) := by
  have h := (claim_c9_group_partition ⟨0, [], [(1, 1), (2, 2), (3, 5)]⟩).1 (by decide)
  exact h.1.trans (by decide)

/-- C2 is false on the code: the valid deckstring whose group-1 card
identifiers are stored in the order 3, 2, 1 decodes successfully, but
re-encoding writes the identifiers in sorted order, producing a
different string. -/
theorem claim_c2_counterexample :
    Decode "AAEAAAMDAgEAAA==" = .ok ⟨0, [], [(1, 1), (2, 1), (3, 1)]⟩ ∧
    Encode ⟨0, [], [(1, 1), (2, 1), (3, 1)]⟩ = .ok "AAEAAAMBAgMAAA==" ∧
    "AAEAAAMBAgMAAA==" ≠ "AAEAAAMDAgEAAA==" := by
  refine ⟨by decide, ?_, by decide⟩
  rw [Encode, encodeBytes_ok _ (by decide)]
  simp [putUvarint_small, writeSingles, writePairs, sortById, sortHeroes, leById,
    List.insertionSort, List.orderedInsert]
  rfl

/-- C2 (amended): for every valid deckstring in canonical form — that
is, every deckstring produced by `Encode` from a deck with `uint64`
fields, counts at least 1, and any two card entries sharing an
identifier equal (in particular whenever card identifiers are distinct)
— decoding and re-encoding reproduces the string exactly.  Under the
equal-identifier condition every list sorted here is key-injective, so
the conclusion does not depend on how the unstable `sort.Slice`
resolves ties. -/
theorem claim_c2_amended (d : Deck) (hval : ValidDeck d) (hcnt : ∀ c ∈ d.cards, 1 ≤ c.2)
    (hkey : ∀ a ∈ d.cards, ∀ b ∈ d.cards, a.1 = b.1 → a = b)
    (s : String) (henc : Encode d = .ok s) :
    ∃ d2, Decode s = .ok d2 ∧ Encode d2 = .ok s := by
  refine ⟨canonicalize d, Decode_Encode d hval hcnt s henc, ?_⟩
  have hperm : (canonicalize d).cards.Perm d.cards := canonicalize_cards_perm d hcnt
  have hcnt2 : ∀ c ∈ (canonicalize d).cards, 1 ≤ c.2 := fun c hc =>
    hcnt c (hperm.mem_iff.mp hc)
  have hgroup : ∀ p : Nat × Nat → Bool,
      sortById ((canonicalize d).cards.filter p) = sortById (d.cards.filter p) := by
    intro p
    refine eq_of_perm_of_sorted_keyInj _ _
      ((sortById_perm _).trans ((hperm.filter p).trans (sortById_perm _).symm))
      (sortById_sorted _) (sortById_sorted _) ?_
    intro a ha b hb hab
    have ha2 : a ∈ d.cards := hperm.mem_iff.mp (List.mem_of_mem_filter (mem_sortById.mp ha))
    have hb2 : b ∈ d.cards := hperm.mem_iff.mp (List.mem_of_mem_filter (mem_sortById.mp hb))
    exact hkey a ha2 b hb2 hab
  have hbytes : encodeBytes (canonicalize d) = encodeBytes d := by
    rw [encodeBytes_ok d hcnt, encodeBytes_ok (canonicalize d) hcnt2]
    rw [hgroup, hgroup, hgroup]
    have hlen : (canonicalize d).heroes.length = d.heroes.length := sortHeroes_length d.heroes
    have hsh : sortHeroes (canonicalize d).heroes = sortHeroes d.heroes :=
      sortHeroes_of_sorted (sortHeroes_sorted d.heroes)
    rw [show (canonicalize d).format = d.format from rfl, hlen, hsh]
  rw [Encode, hbytes]
  rw [Encode] at henc
  exact henc

theorem claim_c2_amended_witness :
    ∃ d2, Decode "AAEAAAMBAgMAAA==" = .ok d2 ∧ Encode d2 = .ok "AAEAAAMBAgMAAA==" :=
  claim_c2_amended ⟨0, [], [(1, 1), (2, 1), (3, 1)]⟩ (by decide) (by decide) (by decide)
    "AAEAAAMBAgMAAA==" (by
      rw [Encode, encodeBytes_ok _ (by decide)]
      simp [putUvarint_small, writeSingles, writePairs, sortById, sortHeroes, leById,
        List.insertionSort, List.orderedInsert]
      rfl)

/-- C5 is false on the code: two decks whose card lists are permutations
of each other can encode differently.  With two group-3 entries sharing
identifier 5 but with counts 3 and 4, the per-group sort keeps them in
input order, so the two orders produce different byte streams; and with
two count-0 entries, the first offender differs, so the errors differ. -/
theorem claim_c5_counterexample :
    ([(5, 4), (5, 3)] : List (Nat × Nat)).Perm [(5, 3), (5, 4)] ∧
    Encode ⟨0, [], [(5, 3), (5, 4)]⟩ ≠ Encode ⟨0, [], [(5, 4), (5, 3)]⟩ ∧
    ([(2, 0), (1, 0)] : List (Nat × Nat)).Perm [(1, 0), (2, 0)] ∧
    Encode ⟨0, [], [(1, 0), (2, 0)]⟩ ≠ Encode ⟨0, [], [(2, 0), (1, 0)]⟩ := by
  have e1 : Encode ⟨0, [], [(5, 3), (5, 4)]⟩ = .ok "AAEAAAAAAgUDBQQ=" := by
    rw [Encode, encodeBytes_ok _ (by decide)]
    simp [putUvarint_small, writeSingles, writePairs, sortById, sortHeroes, leById,
      List.insertionSort, List.orderedInsert]
    rfl
  have e2 : Encode ⟨0, [], [(5, 4), (5, 3)]⟩ = .ok "AAEAAAAAAgUEBQM=" := by
    rw [Encode, encodeBytes_ok _ (by decide)]
    simp [putUvarint_small, writeSingles, writePairs, sortById, sortHeroes, leById,
      List.insertionSort, List.orderedInsert]
    rfl
  refine ⟨by decide, ?_, by decide, by decide⟩
  rw [e1, e2]
  decide

/-- C5 (amended): two decks with the same format and permuted heroes and
cards encode identically, provided all counts are at least 1 and any two
card entries sharing an identifier are equal (in particular whenever
identifiers are distinct). -/
theorem claim_c5_amended (d1 d2 : Deck) (hfmt : d2.format = d1.format)
    (hh : d2.heroes.Perm d1.heroes) (hcards : d2.cards.Perm d1.cards)
    (hcnt : ∀ c ∈ d1.cards, 1 ≤ c.2)
    (hkey : ∀ a ∈ d1.cards, ∀ b ∈ d1.cards, a.1 = b.1 → a = b) :
    Encode d2 = Encode d1 := by
  have hcnt2 : ∀ c ∈ d2.cards, 1 ≤ c.2 := fun c hc => hcnt c (hcards.mem_iff.mp hc)
  have hsh : sortHeroes d2.heroes = sortHeroes d1.heroes := by
    refine List.eq_of_perm_of_sorted
      ((sortHeroes_perm d2.heroes).trans (hh.trans (sortHeroes_perm d1.heroes).symm))
      (sortHeroes_sorted d2.heroes) (sortHeroes_sorted d1.heroes)
  have hgroup : ∀ p : Nat × Nat → Bool,
      sortById (d2.cards.filter p) = sortById (d1.cards.filter p) := by
    intro p
    refine eq_of_perm_of_sorted_keyInj _ _
      ((sortById_perm _).trans ((hcards.filter p).trans (sortById_perm _).symm))
      (sortById_sorted _) (sortById_sorted _) ?_
    intro a ha b hb hab
    have ha2 : a ∈ d1.cards := hcards.mem_iff.mp (List.mem_of_mem_filter (mem_sortById.mp ha))
    have hb2 : b ∈ d1.cards := hcards.mem_iff.mp (List.mem_of_mem_filter (mem_sortById.mp hb))
    exact hkey a ha2 b hb2 hab
  rw [Encode, Encode, encodeBytes_ok d1 hcnt, encodeBytes_ok d2 hcnt2]
  rw [hfmt, hh.length_eq, hsh, hgroup, hgroup, hgroup]

theorem claim_c5_amended_witness :
    Encode ⟨0, [1], [(3, 2), (2, 1)]⟩ = Encode ⟨0, [1], [(2, 1), (3, 2)]⟩ :=
  claim_c5_amended ⟨0, [1], [(2, 1), (3, 2)]⟩ ⟨0, [1], [(3, 2), (2, 1)]⟩
    rfl (by decide) (by decide) (by decide) (by decide)

end Deckstrings
